import Mathlib

/-!
Shallow embedding of the `noodles-squab` pairing engine
(`src/record_pairs.rs`) and the `Feature` value type (`src/feature.rs`).

The pairing engine consumes an ordered stream of decode results (each a
BAM record or an I/O error), buffers records whose mate has not arrived
yet in a map keyed by a derived identity key, and emits `(first, second)`
pairs as soon as both mates have been observed.  The buffer is a
`HashMap<RecordKey, Record>`; it is modelled here as an association list
with at most one entry per key, which matches the map semantics
(`insert` overwrites, `remove` deletes the entry, drain yields all
entries in unspecified order — here: list order).

The `.unwrap()` calls inside `key` and `mate_key` panic when a record's
flags resolve to neither first nor second mate; a panic is modelled by
`Option` at the key level and by a dedicated `panicked` outcome at the
engine level.
-/

set_option maxHeartbeats 1000000

namespace Squab

/-- BAM flag word (`bam::Flag`, a `u16`). -/
abbrev Flag := Nat

/-- `Flag::is_read_1`: tests bit `0x40`. -/
def Flag.is_read_1 (f : Flag) : Bool := f.testBit 6

/-- `Flag::is_read_2`: tests bit `0x80`. -/
def Flag.is_read_2 (f : Flag) : Bool := f.testBit 7

/-- `Flag::is_secondary`: tests bit `0x100`. -/
def Flag.is_secondary (f : Flag) : Bool := f.testBit 8

/-- `Flag::is_supplementary`: tests bit `0x800`. -/
def Flag.is_supplementary (f : Flag) : Bool := f.testBit 11

/-- The fields of `bam::Record` that the pairing engine reads. -/
structure BamRecord where
  read_name : List Nat
  flag : Flag
  ref_id : Int
  pos : Int
  next_ref_id : Int
  next_pos : Int
  tlen : Int
deriving DecidableEq, Repr

/-- `PairPosition` from `record_pairs.rs`. -/
inductive PairPosition where
  | first
  | second
deriving DecidableEq, Repr

/-- `PairPosition::mate`. -/
def PairPosition.mate : PairPosition → PairPosition
  | .first => .second
  | .second => .first

/-- `TryFrom<bam::Flag> for PairPosition`: `read_1` wins, then `read_2`,
otherwise the conversion fails (`Err(())`, modelled as `none`). -/
def PairPosition.tryFromFlag (f : Flag) : Option PairPosition :=
  if Flag.is_read_1 f then some .first
  else if Flag.is_read_2 f then some .second
  else none

/-- `RecordKey`: `(Vec<u8>, PairPosition, i32, i32, i32, i32, i32)`. -/
structure RecordKey where
  read_name : List Nat
  pair_pos : PairPosition
  ref_id : Int
  pos : Int
  next_ref_id : Int
  next_pos : Int
  tlen : Int
deriving DecidableEq, Repr

/-- `is_primary` from `record_pairs.rs` (despite the name it is true for
secondary-or-supplementary records). -/
def is_primary (r : BamRecord) : Bool :=
  Flag.is_secondary r.flag || Flag.is_supplementary r.flag

/-- `key` from `record_pairs.rs`.  The source unwraps the flag
conversion; `none` models that panic. -/
def key (r : BamRecord) : Option RecordKey :=
  (PairPosition.tryFromFlag r.flag).map fun p =>
    ⟨r.read_name, p, r.ref_id, r.pos, r.next_ref_id, r.next_pos, r.tlen⟩

/-- `mate_key` from `record_pairs.rs`: designation flipped, own/mate
reference-id and position pairs swapped, template length negated.
`none` models the `unwrap` panic. -/
def mate_key (r : BamRecord) : Option RecordKey :=
  (PairPosition.tryFromFlag r.flag).map fun p =>
    ⟨r.read_name, p.mate, r.next_ref_id, r.next_pos, r.ref_id, r.pos, -r.tlen⟩

/-- `b` is a true mate of `a`: same template name, complementary mate
designations, mirrored reference-id/position fields, negated template
length. -/
def Mated (a b : BamRecord) : Prop :=
  (PairPosition.tryFromFlag a.flag).isSome = true ∧
  PairPosition.tryFromFlag b.flag =
    (PairPosition.tryFromFlag a.flag).map PairPosition.mate ∧
  b.read_name = a.read_name ∧
  b.ref_id = a.next_ref_id ∧ b.pos = a.next_pos ∧
  b.next_ref_id = a.ref_id ∧ b.next_pos = a.pos ∧
  b.tlen = -a.tlen

instance (a b : BamRecord) : Decidable (Mated a b) := by
  unfold Mated; infer_instance

theorem PairPosition.mate_mate (p : PairPosition) : p.mate.mate = p := by
  cases p <;> rfl

theorem PairPosition.mate_ne (p : PairPosition) : p.mate ≠ p := by
  cases p <;> simp [PairPosition.mate]

/-- From a true mate pair, looking up the mate key of one record finds
the identity key of the other. -/
theorem mate_key_eq_key {a b : BamRecord} (h : Mated a b) : mate_key a = key b := by
  obtain ⟨hs, hf, hn, h1, h2, h3, h4, h5⟩ := h
  obtain ⟨p, hp⟩ := Option.isSome_iff_exists.mp hs
  rw [hp] at hf
  simp only [Option.map_some'] at hf
  simp [mate_key, key, hp, hf, hn, h1, h2, h3, h4, h5]

theorem Mated.symm {a b : BamRecord} (h : Mated a b) : Mated b a := by
  obtain ⟨hs, hf, hn, h1, h2, h3, h4, h5⟩ := h
  obtain ⟨p, hp⟩ := Option.isSome_iff_exists.mp hs
  simp [hp] at hf
  refine ⟨by simp [hf], ?_, hn.symm, by omega, by omega, by omega, by omega, by omega⟩
  simp [hf, hp, PairPosition.mate_mate]

/-! ### The buffer (`HashMap<RecordKey, bam::Record>`) -/

/-- The engine's buffer, as an association list with at most one entry
per key (the reachable states keep keys pairwise distinct, matching the
hash-map semantics). -/
abbrev Buf := List (RecordKey × BamRecord)

/-- `HashMap::get`-style lookup. -/
def bufLookup (k : RecordKey) : Buf → Option BamRecord
  | [] => none
  | (k', v) :: rest => if k' = k then some v else bufLookup k rest

/-- `HashMap::remove`: returns the removed value (if any) and the
remaining buffer. -/
def bufRemove (k : RecordKey) : Buf → Option BamRecord × Buf
  | [] => (none, [])
  | (k', v) :: rest =>
    if k' = k then (some v, rest)
    else ((bufRemove k rest).1, (k', v) :: (bufRemove k rest).2)

/-- `HashMap::insert`: overwrites the entry for `k` if present,
otherwise adds one. -/
def bufInsert (k : RecordKey) (v : BamRecord) : Buf → Buf
  | [] => [(k, v)]
  | (k', v') :: rest =>
    if k' = k then (k, v) :: rest else (k', v') :: bufInsert k v rest

/-- The buffered record values (what a drain yields). -/
def bufVals (b : Buf) : List BamRecord := b.map Prod.snd

/-- The buffer keys. -/
def bufKeys (b : Buf) : List RecordKey := b.map Prod.fst

/-- Every buffered entry is stored under its own identity key. -/
def bufInv (b : Buf) : Prop := ∀ kv ∈ b, key kv.2 = some kv.1

theorem bufRemove_fst (k : RecordKey) (b : Buf) :
    (bufRemove k b).1 = bufLookup k b := by
  induction b with
  | nil => rfl
  | cons kv rest ih =>
    obtain ⟨k', v⟩ := kv
    by_cases h : k' = k <;> simp [bufRemove, bufLookup, h, ih]

theorem bufRemove_none {k : RecordKey} {b : Buf}
    (h : bufLookup k b = none) : bufRemove k b = (none, b) := by
  induction b with
  | nil => rfl
  | cons kv rest ih =>
    obtain ⟨k', v⟩ := kv
    by_cases hk : k' = k
    · simp [bufLookup, hk] at h
    · simp [bufLookup, hk] at h
      simp [bufRemove, hk, ih h]

theorem bufRemove_lookup_ne {k k' : RecordKey} (b : Buf) (h : k' ≠ k) :
    bufLookup k' (bufRemove k b).2 = bufLookup k' b := by
  induction b with
  | nil => rfl
  | cons kv rest ih =>
    obtain ⟨k₀, v⟩ := kv
    by_cases hk : k₀ = k
    · subst hk
      have hne : k₀ ≠ k' := fun hc => h hc.symm
      simp [bufRemove, bufLookup, hne]
    · by_cases hk' : k₀ = k'
      · simp [bufRemove, bufLookup, hk, hk', h]
      · simp [bufRemove, bufLookup, hk, hk', ih]

theorem bufInsert_lookup_self (k : RecordKey) (v : BamRecord) (b : Buf) :
    bufLookup k (bufInsert k v b) = some v := by
  induction b with
  | nil => simp [bufInsert, bufLookup]
  | cons kv rest ih =>
    obtain ⟨k₀, v₀⟩ := kv
    by_cases hk : k₀ = k <;> simp [bufInsert, bufLookup, hk, ih]

theorem bufInsert_lookup_ne {k k' : RecordKey} (v : BamRecord) (b : Buf)
    (h : k' ≠ k) : bufLookup k' (bufInsert k v b) = bufLookup k' b := by
  have hne : k ≠ k' := fun hc => h hc.symm
  induction b with
  | nil => simp [bufInsert, bufLookup, hne]
  | cons kv rest ih =>
    obtain ⟨k₀, v₀⟩ := kv
    by_cases hk : k₀ = k
    · subst hk
      simp [bufInsert, bufLookup, hne]
    · by_cases hk' : k₀ = k' <;> simp [bufInsert, bufLookup, hk, hk', h, ih]

/-- A successful removal splits the buffer at the removed entry; every
entry before the split has a different key. -/
theorem bufRemove_shape {k : RecordKey} {b b' : Buf} {v : BamRecord}
    (h : bufRemove k b = (some v, b')) :
    ∃ b₁ b₂, b = b₁ ++ (k, v) :: b₂ ∧ b' = b₁ ++ b₂ ∧
      ∀ kv ∈ b₁, kv.1 ≠ k := by
  induction b generalizing b' with
  | nil => simp [bufRemove] at h
  | cons kv rest ih =>
    obtain ⟨k₀, v₀⟩ := kv
    by_cases hk : k₀ = k
    · subst hk
      simp [bufRemove] at h
      exact ⟨[], rest, by simp [h.1], by simp [h.2], by simp⟩
    · simp [bufRemove, hk] at h
      obtain ⟨h1, h2⟩ := h
      have hr : bufRemove k rest = (some v, (bufRemove k rest).2) := by
        rw [← h1]
      obtain ⟨b₁, b₂, hb, hb', hne⟩ := ih hr
      refine ⟨(k₀, v₀) :: b₁, b₂, by simp [hb], by simp [← h2, hb'], ?_⟩
      intro kv hm
      rcases List.mem_cons.mp hm with rfl | hm
      · exact hk
      · exact hne kv hm

/-- Insertion either overwrites the (unique first) entry for `k` or
appends a fresh entry at the end. -/
theorem bufInsert_shape (k : RecordKey) (v : BamRecord) (b : Buf) :
    (∃ b₁ b₂ w, b = b₁ ++ (k, w) :: b₂ ∧
      bufInsert k v b = b₁ ++ (k, v) :: b₂ ∧ ∀ kv ∈ b₁, kv.1 ≠ k) ∨
    (bufInsert k v b = b ++ [(k, v)] ∧ ∀ kv ∈ b, kv.1 ≠ k) := by
  induction b with
  | nil => exact Or.inr ⟨rfl, by simp⟩
  | cons kv rest ih =>
    obtain ⟨k₀, v₀⟩ := kv
    by_cases hk : k₀ = k
    · subst hk
      exact Or.inl ⟨[], rest, v₀, rfl, by simp [bufInsert], by simp⟩
    · rcases ih with ⟨b₁, b₂, w, hb, hb', hne⟩ | ⟨hb, hne⟩
      · refine Or.inl ⟨(k₀, v₀) :: b₁, b₂, w, by simp [hb], ?_, ?_⟩
        · simp [bufInsert, hk, hb']
        · intro kv hm
          rcases List.mem_cons.mp hm with rfl | hm
          · exact hk
          · exact hne kv hm
      · refine Or.inr ⟨by simp [bufInsert, hk, hb], ?_⟩
        intro kv hm
        rcases List.mem_cons.mp hm with rfl | hm
        · exact hk
        · exact hne kv hm

theorem bufInsert_mem {kv : RecordKey × BamRecord} {k : RecordKey}
    {v : BamRecord} {b : Buf} (h : kv ∈ bufInsert k v b) :
    kv = (k, v) ∨ kv ∈ b := by
  induction b with
  | nil => simpa [bufInsert] using h
  | cons kv₀ rest ih =>
    obtain ⟨k₀, v₀⟩ := kv₀
    by_cases hk : k₀ = k
    · subst hk
      rcases (by simpa [bufInsert] using h : kv = (k₀, v) ∨ kv ∈ rest) with h | h
      · exact Or.inl h
      · exact Or.inr (List.mem_cons_of_mem _ h)
    · rcases (by simpa [bufInsert, hk] using h :
        kv = (k₀, v₀) ∨ kv ∈ bufInsert k v rest) with h | h
      · exact Or.inr (by simp [h])
      · rcases ih h with h | h
        · exact Or.inl h
        · exact Or.inr (List.mem_cons_of_mem _ h)

theorem bufRemove_mem {kv : RecordKey × BamRecord} {k : RecordKey} {b : Buf}
    (h : kv ∈ (bufRemove k b).2) : kv ∈ b := by
  induction b with
  | nil => simp [bufRemove] at h
  | cons kv₀ rest ih =>
    obtain ⟨k₀, v₀⟩ := kv₀
    by_cases hk : k₀ = k
    · subst hk
      exact List.mem_cons_of_mem _ (by simpa [bufRemove] using h)
    · rcases (by simpa [bufRemove, hk] using h :
        kv = (k₀, v₀) ∨ kv ∈ (bufRemove k rest).2) with h | h
      · simp [h]
      · exact List.mem_cons_of_mem _ (ih h)

theorem bufInv_insert {b : Buf} {k : RecordKey} {v : BamRecord}
    (hb : bufInv b) (hv : key v = some k) : bufInv (bufInsert k v b) := by
  intro kv hm
  rcases bufInsert_mem hm with rfl | hm
  · exact hv
  · exact hb kv hm

theorem bufInv_remove {b : Buf} (k : RecordKey) (hb : bufInv b) :
    bufInv (bufRemove k b).2 :=
  fun kv hm => hb kv (bufRemove_mem hm)

/-- Under the invariant, a removed record was stored under its own key. -/
theorem bufRemove_some_key {k : RecordKey} {b b' : Buf} {v : BamRecord}
    (hb : bufInv b) (h : bufRemove k b = (some v, b')) : key v = some k := by
  obtain ⟨b₁, b₂, hsplit, _, _⟩ := bufRemove_shape h
  exact hb (k, v) (by simp [hsplit])

/-! ### The pairing engine (`RecordPairs`) -/

/-- One item of the upstream source: a decoded record or an I/O decode
failure (`io::Result<bam::Record>`; failures carry an opaque id). -/
abbrev Res := Except Nat BamRecord

/-- One element of the engine's output sequence: a completed
`(first, second)` pair or a forwarded decode failure. -/
inductive PairOutput where
  | pair : BamRecord → BamRecord → PairOutput
  | err : Nat → PairOutput
deriving DecidableEq, Repr

/-- Result of one `next_pair` call: end of stream (`done`, with the final
buffer), an emitted item (`out`, with the not-yet-consumed input and the
buffer after the call), or the `unwrap` panic on a record with an
unresolvable mate designation (`panicked`, with the input and buffer
exactly as they stood when the panic fired). -/
inductive StepResult where
  | done : Buf → StepResult
  | out : PairOutput → List Res → Buf → StepResult
  | panicked : List Res → Buf → StepResult
deriving Repr

/-- `RecordPairs::next_pair`, with the engine state (remaining input and
buffer) passed explicitly.  Mirrors the source loop: pull one item;
forward an error; skip a non-primary record under `primary_only`; pair
the record against the buffer via its mate key, ordering the pair by the
mate key's designation; otherwise buffer the record under its own key
and keep pulling. -/
def next_pair (primary_only : Bool) : List Res → Buf → StepResult
  | [], buf => .done buf
  | .error e :: rest, buf => .out (.err e) rest buf
  | .ok r :: rest, buf =>
    if primary_only && is_primary r then next_pair primary_only rest buf
    else
      match mate_key r with
      | none => .panicked rest buf
      | some mk =>
        match (bufRemove mk buf).1 with
        | some mate =>
          match mk.pair_pos with
          | .first => .out (.pair mate r) rest (bufRemove mk buf).2
          | .second => .out (.pair r mate) rest (bufRemove mk buf).2
        | none =>
          match key r with
          | some k => next_pair primary_only rest (bufInsert k r buf)
          | none => .panicked rest buf

/-- Result of driving the pairing iterator to exhaustion: the emitted
output sequence plus the final buffer, or the outputs emitted before an
`unwrap` panic plus the buffer at the panic. -/
inductive RunResult where
  | finished : List PairOutput → Buf → RunResult
  | panicked : List PairOutput → Buf → RunResult
deriving DecidableEq, Repr

/-- Prepend one emitted output to a run result. -/
def RunResult.consOut (o : PairOutput) : RunResult → RunResult
  | .finished os b => .finished (o :: os) b
  | .panicked os b => .panicked (o :: os) b

/-- Prepend emitted outputs to a run result. -/
def RunResult.consAll (os : List PairOutput) : RunResult → RunResult
  | .finished os' b => .finished (os ++ os') b
  | .panicked os' b => .panicked (os ++ os') b

/-- The emitted outputs of a run. -/
def RunResult.outputs : RunResult → List PairOutput
  | .finished os _ => os
  | .panicked os _ => os

/-- The buffer a run ends with. -/
def RunResult.buffer : RunResult → Buf
  | .finished _ b => b
  | .panicked _ b => b

/-- Whether the run reached end of stream (no panic). -/
def RunResult.isFinished : RunResult → Bool
  | .finished _ _ => true
  | .panicked _ _ => false

/-- The pairing iterator driven to exhaustion: repeated `next_pair`
calls, collecting every emitted item.  (`runPairs_eq_next_pair` below
checks that this recursion is exactly the iteration of `next_pair`.) -/
def runPairs (primary_only : Bool) : List Res → Buf → RunResult
  | [], buf => .finished [] buf
  | .error e :: rest, buf => (runPairs primary_only rest buf).consOut (.err e)
  | .ok r :: rest, buf =>
    if primary_only && is_primary r then runPairs primary_only rest buf
    else
      match mate_key r with
      | none => .panicked [] buf
      | some mk =>
        match (bufRemove mk buf).1 with
        | some mate =>
          (runPairs primary_only rest (bufRemove mk buf).2).consOut
            (match mk.pair_pos with
             | .first => .pair mate r
             | .second => .pair r mate)
        | none =>
          match key r with
          | some k => runPairs primary_only rest (bufInsert k r buf)
          | none => .panicked [] buf

/-- `RecordPairs::singletons`: `HashMap::drain` yields every buffered
record (here: in list order, the map order being unspecified) and leaves
the buffer empty. -/
def singletons (buf : Buf) : List BamRecord × Buf := (bufVals buf, [])

/-- `runPairs` is the iteration of `next_pair` to exhaustion. -/
theorem runPairs_eq_next_pair (po : Bool) (l : List Res) (buf : Buf) :
    runPairs po l buf =
      match next_pair po l buf with
      | .done b => .finished [] b
      | .out o rest b => (runPairs po rest b).consOut o
      | .panicked _ b => .panicked [] b := by
  induction l generalizing buf with
  | nil => rfl
  | cons x rest ih =>
    cases x with
    | error e => rfl
    | ok r =>
      by_cases h : (po && is_primary r) = true
      · simp only [runPairs, next_pair, if_pos h]
        exact ih buf
      · simp only [runPairs, next_pair, if_neg h]
        cases hmk : mate_key r with
        | none => rfl
        | some mk =>
          dsimp only
          cases hrm : (bufRemove mk buf).1 with
          | none =>
            dsimp only
            cases hk : key r with
            | none => rfl
            | some k => exact ih _
          | some mate =>
            dsimp only
            cases hpp : mk.pair_pos <;> rfl

theorem RunResult.consAll_nil (x : RunResult) : x.consAll [] = x := by
  cases x <;> rfl

theorem RunResult.consOut_consAll (o : PairOutput) (os : List PairOutput)
    (x : RunResult) : (x.consAll os).consOut o = x.consAll (o :: os) := by
  cases x <;> rfl

/-- Pushing one output through the continuation of `runPairs_append`. -/
theorem consOut_match (po : Bool) (o : PairOutput) (x : RunResult)
    (l₂ : List Res) :
    (match x with
     | RunResult.finished os b => (runPairs po l₂ b).consAll os
     | RunResult.panicked os b => RunResult.panicked os b).consOut o =
    (match x.consOut o with
     | RunResult.finished os b => (runPairs po l₂ b).consAll os
     | RunResult.panicked os b => RunResult.panicked os b) := by
  cases x with
  | finished os b => exact RunResult.consOut_consAll o os _
  | panicked os b => rfl

/-- Processing a concatenated input is processing the first part and
then the second from the buffer the first part left behind. -/
theorem runPairs_append (po : Bool) (l₁ l₂ : List Res) (buf : Buf) :
    runPairs po (l₁ ++ l₂) buf =
      match runPairs po l₁ buf with
      | .finished os b => (runPairs po l₂ b).consAll os
      | .panicked os b => .panicked os b := by
  induction l₁ generalizing buf with
  | nil => exact (RunResult.consAll_nil _).symm
  | cons x rest ih =>
    cases x with
    | error e =>
      show (runPairs po (rest ++ l₂) buf).consOut (.err e) = _
      rw [ih]
      exact consOut_match po _ _ l₂
    | ok r =>
      by_cases h : (po && is_primary r) = true
      · simp only [List.cons_append, runPairs, if_pos h]
        exact ih buf
      · simp only [List.cons_append, runPairs, if_neg h]
        cases hmk : mate_key r with
        | none => rfl
        | some mk =>
          dsimp only
          cases hrm : (bufRemove mk buf).1 with
          | none =>
            dsimp only
            cases hk : key r with
            | none => rfl
            | some k => exact ih _
          | some mate =>
            dsimp only
            rw [List.append_eq, ih]
            exact consOut_match po _ _ l₂

/-! ### Stream-level vocabulary for the claims -/

/-- The successfully decoded records of an input stream. -/
def okRecords : List Res → List BamRecord
  | [] => []
  | .ok r :: rest => r :: okRecords rest
  | .error _ :: rest => okRecords rest

/-- Every decoded record in the stream has a resolvable mate
designation (so no key computation panics). -/
def resolvable (l : List Res) : Prop :=
  ∀ r ∈ okRecords l, (PairPosition.tryFromFlag r.flag).isSome = true

/-- No decoded record in the stream uses the template name `n`. -/
def avoidsName (n : List Nat) (l : List Res) : Prop :=
  ∀ r ∈ okRecords l, r.read_name ≠ n

instance (l : List Res) : Decidable (resolvable l) := by
  unfold resolvable; infer_instance

instance (n : List Nat) (l : List Res) : Decidable (avoidsName n l) := by
  unfold avoidsName; infer_instance

/-- The records appearing inside emitted pairs. -/
def pairRecs : List PairOutput → List BamRecord
  | [] => []
  | .pair x y :: rest => x :: y :: pairRecs rest
  | .err _ :: rest => pairRecs rest

/-- Whether an output is a pair made of exactly the records `a` and `b`
(in either order). -/
def isPairOf (a b : BamRecord) : PairOutput → Bool
  | .pair x y => decide ((x = a ∧ y = b) ∨ (x = b ∧ y = a))
  | .err _ => false

/-- The two mates ordered (First, Second) by their designation. -/
def pairInOrder (a b : BamRecord) : PairOutput :=
  match PairPosition.tryFromFlag a.flag with
  | some .first => .pair a b
  | _ => .pair b a

/-! ### Single-step unfolding of `runPairs` -/

theorem runPairs_error (po : Bool) (e : Nat) (rest : List Res) (buf : Buf) :
    runPairs po (.error e :: rest) buf =
      (runPairs po rest buf).consOut (.err e) := rfl

theorem runPairs_skip {po : Bool} {r : BamRecord}
    (h : (po && is_primary r) = true) (rest : List Res) (buf : Buf) :
    runPairs po (.ok r :: rest) buf = runPairs po rest buf := by
  simp only [runPairs, if_pos h]

theorem runPairs_panic {po : Bool} {r : BamRecord}
    (h : (po && is_primary r) = false) (hmk : mate_key r = none)
    (rest : List Res) (buf : Buf) :
    runPairs po (.ok r :: rest) buf = .panicked [] buf := by
  have h' : ¬((po && is_primary r) = true) := by simp [h]
  simp only [runPairs, if_neg h', hmk]

theorem runPairs_hit {po : Bool} {r mate : BamRecord} {mk : RecordKey}
    {buf : Buf} (h : (po && is_primary r) = false)
    (hmk : mate_key r = some mk) (hhit : (bufRemove mk buf).1 = some mate)
    (rest : List Res) :
    runPairs po (.ok r :: rest) buf =
      (runPairs po rest (bufRemove mk buf).2).consOut
        (match mk.pair_pos with
         | .first => .pair mate r
         | .second => .pair r mate) := by
  have h' : ¬((po && is_primary r) = true) := by simp [h]
  simp only [runPairs, if_neg h', hmk, hhit]

theorem runPairs_insert {po : Bool} {r : BamRecord} {mk k : RecordKey}
    {buf : Buf} (h : (po && is_primary r) = false)
    (hmk : mate_key r = some mk) (hmiss : bufLookup mk buf = none)
    (hk : key r = some k) (rest : List Res) :
    runPairs po (.ok r :: rest) buf = runPairs po rest (bufInsert k r buf) := by
  have h' : ¬((po && is_primary r) = true) := by simp [h]
  have hrm : (bufRemove mk buf).1 = none := by
    rw [bufRemove_fst]; exact hmiss
  simp only [runPairs, if_neg h', hmk, hrm, hk]

/-- The pair as emitted by a buffer hit whose stored mate has the given
designation: the First-designated record goes first. -/
def orderedOut : PairPosition → BamRecord → BamRecord → PairOutput
  | .first, mate, r => .pair mate r
  | .second, mate, r => .pair r mate

theorem runPairs_hit_ord {po : Bool} {r mate : BamRecord} {mk : RecordKey}
    {buf : Buf} (h : (po && is_primary r) = false)
    (hmk : mate_key r = some mk) (hhit : (bufRemove mk buf).1 = some mate)
    (rest : List Res) :
    runPairs po (.ok r :: rest) buf =
      (runPairs po rest (bufRemove mk buf).2).consOut
        (orderedOut mk.pair_pos mate r) := by
  rw [runPairs_hit h hmk hhit rest]
  cases hpp : mk.pair_pos <;> rfl

theorem key_read_name {r : BamRecord} {k : RecordKey} (h : key r = some k) :
    k.read_name = r.read_name := by
  cases hp : PairPosition.tryFromFlag r.flag with
  | none =>
    simp only [key, hp, Option.map_none'] at h
    exact Option.noConfusion h
  | some p =>
    simp only [key, hp, Option.map_some', Option.some.injEq] at h
    subst h
    rfl

/-- Processing records that all avoid template name `n` from a buffer
satisfying the invariant never panics, preserves the invariant, leaves
every `n`-keyed buffer entry untouched, and emits no pair mentioning a
record with name `n`. -/
theorem runPairs_avoid (po : Bool) (n : List Nat) (l : List Res) :
    ∀ buf : Buf, bufInv buf → resolvable l → avoidsName n l →
    ∃ os b', runPairs po l buf = .finished os b' ∧ bufInv b' ∧
      (∀ k : RecordKey, k.read_name = n → bufLookup k b' = bufLookup k buf) ∧
      (∀ x y : BamRecord, PairOutput.pair x y ∈ os →
        x.read_name ≠ n ∧ y.read_name ≠ n) := by
  induction l with
  | nil =>
    intro buf hinv _ _
    exact ⟨[], buf, rfl, hinv, fun _ _ => rfl, by simp⟩
  | cons x rest ih =>
    intro buf hinv hres hav
    cases x with
    | error e =>
      have hres' : resolvable rest := fun s hs => hres s (by simp [okRecords, hs])
      have hav' : avoidsName n rest := fun s hs => hav s (by simp [okRecords, hs])
      obtain ⟨os, b', hrun, hinv', hpres, hpairs⟩ := ih buf hinv hres' hav'
      refine ⟨.err e :: os, b', ?_, hinv', hpres, ?_⟩
      · rw [runPairs_error, hrun]; rfl
      · intro x y hm
        rcases List.mem_cons.mp hm with hx | hm
        · cases hx
        · exact hpairs x y hm
    | ok r =>
      have hmem : r ∈ okRecords (.ok r :: rest) := by simp [okRecords]
      have hres' : resolvable rest := fun s hs => hres s (by simp [okRecords, hs])
      have hav' : avoidsName n rest := fun s hs => hav s (by simp [okRecords, hs])
      have hrname : r.read_name ≠ n := hav r hmem
      by_cases hskip : (po && is_primary r) = true
      · obtain ⟨os, b', hrun, hinv', hpres, hpairs⟩ := ih buf hinv hres' hav'
        exact ⟨os, b', by rw [runPairs_skip hskip]; exact hrun, hinv', hpres, hpairs⟩
      · have hskip' : (po && is_primary r) = false := by
          simpa using hskip
        obtain ⟨p, hp⟩ := Option.isSome_iff_exists.mp (hres r hmem)
        have hmk : mate_key r = some ⟨r.read_name, p.mate, r.next_ref_id,
            r.next_pos, r.ref_id, r.pos, -r.tlen⟩ := by
          simp [mate_key, hp]
        have hkk : key r = some ⟨r.read_name, p, r.ref_id, r.pos,
            r.next_ref_id, r.next_pos, r.tlen⟩ := by
          simp [key, hp]
        cases hrm : (bufRemove ⟨r.read_name, p.mate, r.next_ref_id,
            r.next_pos, r.ref_id, r.pos, -r.tlen⟩ buf).1 with
        | some mate =>
          have hsplit : bufRemove ⟨r.read_name, p.mate, r.next_ref_id,
              r.next_pos, r.ref_id, r.pos, -r.tlen⟩ buf =
              (some mate, (bufRemove ⟨r.read_name, p.mate, r.next_ref_id,
                r.next_pos, r.ref_id, r.pos, -r.tlen⟩ buf).2) := by
            rw [← hrm]
          have hmatekey : key mate = some ⟨r.read_name, p.mate, r.next_ref_id,
              r.next_pos, r.ref_id, r.pos, -r.tlen⟩ :=
            bufRemove_some_key hinv hsplit
          have hmname : mate.read_name = r.read_name :=
            (key_read_name hmatekey).symm
          have hinv₂ : bufInv (bufRemove ⟨r.read_name, p.mate, r.next_ref_id,
              r.next_pos, r.ref_id, r.pos, -r.tlen⟩ buf).2 :=
            bufInv_remove _ hinv
          obtain ⟨os, b', hrun, hinv', hpres, hpairs⟩ := ih _ hinv₂ hres' hav'
          refine ⟨(match (⟨r.read_name, p.mate, r.next_ref_id, r.next_pos,
              r.ref_id, r.pos, -r.tlen⟩ : RecordKey).pair_pos with
              | .first => PairOutput.pair mate r
              | .second => PairOutput.pair r mate) :: os, b', ?_, hinv', ?_, ?_⟩
          · rw [runPairs_hit hskip' hmk hrm, hrun]; rfl
          · intro k hk
            have hkne : k ≠ ⟨r.read_name, p.mate, r.next_ref_id, r.next_pos,
                r.ref_id, r.pos, -r.tlen⟩ := by
              intro hc
              exact hrname (by rw [← hk, hc])
            rw [hpres k hk, bufRemove_lookup_ne _ hkne]
          · intro x y hm
            rcases List.mem_cons.mp hm with hx | hm
            · have : (x = mate ∧ y = r) ∨ (x = r ∧ y = mate) := by
                cases p <;> simp [PairPosition.mate] at hx <;>
                  rcases hx with ⟨hx1, hx2⟩ <;> subst hx1 <;> subst hx2
                · exact Or.inr ⟨rfl, rfl⟩
                · exact Or.inl ⟨rfl, rfl⟩
              rcases this with ⟨rfl, rfl⟩ | ⟨rfl, rfl⟩
              · exact ⟨by rw [hmname]; exact hrname, hrname⟩
              · exact ⟨hrname, by rw [hmname]; exact hrname⟩
            · exact hpairs x y hm
        | none =>
          have hmiss : bufLookup ⟨r.read_name, p.mate, r.next_ref_id,
              r.next_pos, r.ref_id, r.pos, -r.tlen⟩ buf = none := by
            rw [← bufRemove_fst]; exact hrm
          have hinv₂ : bufInv (bufInsert ⟨r.read_name, p, r.ref_id, r.pos,
              r.next_ref_id, r.next_pos, r.tlen⟩ r buf) :=
            bufInv_insert hinv hkk
          obtain ⟨os, b', hrun, hinv', hpres, hpairs⟩ := ih _ hinv₂ hres' hav'
          refine ⟨os, b', ?_, hinv', ?_, hpairs⟩
          · rw [runPairs_insert hskip' hmk hmiss hkk, hrun]
          · intro k hk
            have hkne : k ≠ ⟨r.read_name, p, r.ref_id, r.pos, r.next_ref_id,
                r.next_pos, r.tlen⟩ := by
              intro hc
              exact hrname (by rw [← hk, hc])
            rw [hpres k hk, bufInsert_lookup_ne _ _ hkne]

theorem isPairOf_pair_false {a b x y : BamRecord}
    (hb : b.read_name = a.read_name) (hx : x.read_name ≠ a.read_name) :
    isPairOf a b (.pair x y) = false := by
  simp only [isPairOf, decide_eq_false_iff_not]
  rintro (⟨rfl, rfl⟩ | ⟨rfl, rfl⟩)
  · exact hx rfl
  · exact hx hb

theorem filter_isPairOf_nil {a b : BamRecord} {os : List PairOutput}
    (hb : b.read_name = a.read_name)
    (h : ∀ x y : BamRecord, PairOutput.pair x y ∈ os →
      x.read_name ≠ a.read_name ∧ y.read_name ≠ a.read_name) :
    os.filter (isPairOf a b) = [] := by
  induction os with
  | nil => rfl
  | cons o rest ih =>
    have hrest := ih fun x y hm => h x y (List.mem_cons_of_mem _ hm)
    cases o with
    | err e => simp [List.filter_cons, isPairOf, hrest]
    | pair x y =>
      have hxy := h x y (List.mem_cons_self _ _)
      simp [List.filter_cons, isPairOf_pair_false hb hxy.1, hrest]

/-- C1: for a true mate pair `a`, `b` arriving in that order at arbitrary
positions in a stream whose other records all use different template
names (and decode failures anywhere), the engine finishes and the output
contains exactly one pair made of `a` and `b`, ordered with the
First-designated mate first.  Since `Mated` is symmetric
(`Mated.symm`), the same statement instantiated with the records swapped
covers the opposite arrival order. -/
theorem claim_C1_pairing (po : Bool) (a b : BamRecord) (xs ys zs : List Res)
    (hm : Mated a b)
    (ha : (po && is_primary a) = false) (hb : (po && is_primary b) = false)
    (hxsr : resolvable xs) (hxsn : avoidsName a.read_name xs)
    (hysr : resolvable ys) (hysn : avoidsName a.read_name ys)
    (hzsr : resolvable zs) (hzsn : avoidsName a.read_name zs) :
    (runPairs po (xs ++ .ok a :: (ys ++ .ok b :: zs)) []).isFinished = true ∧
    (runPairs po (xs ++ .ok a :: (ys ++ .ok b :: zs)) []).outputs.filter
      (isPairOf a b) = [pairInOrder a b] := by
  obtain ⟨p, hp⟩ := Option.isSome_iff_exists.mp hm.1
  have hbname : b.read_name = a.read_name := hm.2.2.1
  have hka : key a = some ⟨a.read_name, p, a.ref_id, a.pos, a.next_ref_id,
      a.next_pos, a.tlen⟩ := by
    simp [key, hp]
  have hmka : mate_key a = some ⟨a.read_name, p.mate, a.next_ref_id,
      a.next_pos, a.ref_id, a.pos, -a.tlen⟩ := by
    simp [mate_key, hp]
  have hmkb : mate_key b = some ⟨a.read_name, p, a.ref_id, a.pos,
      a.next_ref_id, a.next_pos, a.tlen⟩ := by
    rw [mate_key_eq_key hm.symm, hka]
  -- process xs from the empty buffer
  obtain ⟨os₁, b₁, hrun₁, hinv₁, hpres₁, hpairs₁⟩ :=
    runPairs_avoid po a.read_name xs [] (by intro kv h; cases h) hxsr hxsn
  -- a's mate key misses, so a is buffered under its own key
  have hmiss : bufLookup ⟨a.read_name, p.mate, a.next_ref_id, a.next_pos,
      a.ref_id, a.pos, -a.tlen⟩ b₁ = none := hpres₁ _ rfl
  have hstepa : runPairs po (.ok a :: (ys ++ .ok b :: zs)) b₁ =
      runPairs po (ys ++ .ok b :: zs)
        (bufInsert ⟨a.read_name, p, a.ref_id, a.pos, a.next_ref_id,
          a.next_pos, a.tlen⟩ a b₁) :=
    runPairs_insert ha hmka hmiss hka _
  have hinv₂ : bufInv (bufInsert ⟨a.read_name, p, a.ref_id, a.pos,
      a.next_ref_id, a.next_pos, a.tlen⟩ a b₁) :=
    bufInv_insert hinv₁ hka
  -- process ys; the buffered copy of a survives untouched
  obtain ⟨os₂, b₃, hrun₂, hinv₃, hpres₂, hpairs₂⟩ :=
    runPairs_avoid po a.read_name ys _ hinv₂ hysr hysn
  have hfound : bufLookup ⟨a.read_name, p, a.ref_id, a.pos, a.next_ref_id,
      a.next_pos, a.tlen⟩ b₃ = some a := by
    rw [hpres₂ _ rfl, bufInsert_lookup_self]
  have hhit : (bufRemove ⟨a.read_name, p, a.ref_id, a.pos, a.next_ref_id,
      a.next_pos, a.tlen⟩ b₃).1 = some a := by
    rw [bufRemove_fst]; exact hfound
  -- b arrives: its mate key finds a, emitting the ordered pair
  have hstepb : runPairs po (.ok b :: zs) b₃ =
      (runPairs po zs (bufRemove ⟨a.read_name, p, a.ref_id, a.pos,
        a.next_ref_id, a.next_pos, a.tlen⟩ b₃).2).consOut
        (orderedOut p a b) :=
    runPairs_hit_ord hb hmkb hhit zs
  have hinv₄ : bufInv (bufRemove ⟨a.read_name, p, a.ref_id, a.pos,
      a.next_ref_id, a.next_pos, a.tlen⟩ b₃).2 :=
    bufInv_remove _ hinv₃
  -- process zs
  obtain ⟨os₃, b₅, hrun₃, hinv₅, hpres₃, hpairs₃⟩ :=
    runPairs_avoid po a.read_name zs _ hinv₄ hzsr hzsn
  -- assemble the full run
  have hall : runPairs po (xs ++ .ok a :: (ys ++ .ok b :: zs)) [] =
      .finished (os₁ ++ (os₂ ++ orderedOut p a b :: os₃)) b₅ := by
    rw [runPairs_append, hrun₁]
    show (runPairs po (.ok a :: (ys ++ .ok b :: zs)) b₁).consAll os₁ = _
    rw [hstepa, runPairs_append, hrun₂]
    show ((runPairs po (.ok b :: zs) b₃).consAll os₂).consAll os₁ = _
    rw [hstepb, hrun₃]
    rfl
  have hin : pairInOrder a b = orderedOut p a b := by
    cases p <;> simp [pairInOrder, orderedOut, hp]
  rw [hall, hin]
  refine ⟨rfl, ?_⟩
  show (os₁ ++ (os₂ ++ orderedOut p a b :: os₃)).filter (isPairOf a b) = _
  rw [List.filter_append, List.filter_append,
    filter_isPairOf_nil hbname hpairs₁, filter_isPairOf_nil hbname hpairs₂,
    List.filter_cons, filter_isPairOf_nil hbname hpairs₃]
  have hone : isPairOf a b (orderedOut p a b) = true := by
    cases p <;> simp [isPairOf, orderedOut]
  rw [if_pos hone]
  simp

/-- Witness for C1 at the spec's concrete scenario: A1 (first mate of
"r1"), one unrelated record ("r2"), then A2 (second mate of "r1"). -/
theorem claim_C1_pairing_witness :
    (runPairs false ([] ++ .ok ⟨[114, 49], 0x41, 0, 10, 0, 50, 40⟩ ::
      ([Except.ok ⟨[114, 50], 0x41, 0, 100, 0, 120, 20⟩] ++
        .ok ⟨[114, 49], 0x81, 0, 50, 0, 10, -40⟩ :: [])) []).isFinished
      = true ∧
    (runPairs false ([] ++ .ok ⟨[114, 49], 0x41, 0, 10, 0, 50, 40⟩ ::
      ([Except.ok ⟨[114, 50], 0x41, 0, 100, 0, 120, 20⟩] ++
        .ok ⟨[114, 49], 0x81, 0, 50, 0, 10, -40⟩ :: [])) []).outputs.filter
      (isPairOf ⟨[114, 49], 0x41, 0, 10, 0, 50, 40⟩
        ⟨[114, 49], 0x81, 0, 50, 0, 10, -40⟩) =
      [pairInOrder ⟨[114, 49], 0x41, 0, 10, 0, 50, 40⟩
        ⟨[114, 49], 0x81, 0, 50, 0, 10, -40⟩] :=
  claim_C1_pairing false ⟨[114, 49], 0x41, 0, 10, 0, 50, 40⟩
    ⟨[114, 49], 0x81, 0, 50, 0, 10, -40⟩ []
    [Except.ok ⟨[114, 50], 0x41, 0, 100, 0, 120, 20⟩] []
    (by decide) (by decide) (by decide) (by decide) (by decide) (by decide)
    (by decide) (by decide) (by decide)

/-- C2: `mate_key` is a pure function of the record (designation
flipped, own/mate reference-id and position pairs swapped, template
length negated); for a true mate pair, `mate_key` of either record
equals the `key` of the other, and the mate relation is symmetric. -/
theorem claim_C2_mate_key (a b : BamRecord) (h : Mated a b) :
    mate_key a = key b ∧ mate_key b = key a ∧ Mated b a :=
  ⟨mate_key_eq_key h, mate_key_eq_key h.symm, h.symm⟩

/-- Witness for C2 on the spec's concrete mate pair. -/
theorem claim_C2_mate_key_witness :
    Mated ⟨[114, 49], 0x41, 0, 10, 0, 50, 40⟩
      ⟨[114, 49], 0x81, 0, 50, 0, 10, -40⟩ ∧
    (mate_key ⟨[114, 49], 0x41, 0, 10, 0, 50, 40⟩ =
        key ⟨[114, 49], 0x81, 0, 50, 0, 10, -40⟩ ∧
      mate_key ⟨[114, 49], 0x81, 0, 50, 0, 10, -40⟩ =
        key ⟨[114, 49], 0x41, 0, 10, 0, 50, 40⟩ ∧
      Mated ⟨[114, 49], 0x81, 0, 50, 0, 10, -40⟩
        ⟨[114, 49], 0x41, 0, 10, 0, 50, 40⟩) :=
  ⟨by decide, claim_C2_mate_key _ _ (by decide)⟩

/-- C3 counterexample: a record whose flags identify neither first nor
second mate (flag `0x01`) is neither surfaced as a per-record failure
nor silently excluded: the `unwrap` inside `mate_key` panics (modelled
`none` / `panicked`), i.e. the engine crashes, refuting "never
crashes". -/
theorem claim_C3_counterexample :
    mate_key ⟨[114, 49], 0x01, 0, 0, 0, 0, 0⟩ = none ∧
    runPairs false [.ok ⟨[114, 49], 0x01, 0, 0, 0, 0, 0⟩] [] =
      .panicked [] [] := by
  exact ⟨by decide, by decide⟩

/-- C3 (amended): for a record whose flags identify neither first nor
second mate and which is not filtered out by `primary_only`, the engine
deterministically faults (panics) at mate-key computation; the fault
fires before any buffer mutation, so the buffer at the panic is exactly
the buffer before the call. -/
theorem claim_C3_designation_fault (po : Bool) (r : BamRecord)
    (rest : List Res) (buf : Buf)
    (hflag : PairPosition.tryFromFlag r.flag = none)
    (hskip : (po && is_primary r) = false) :
    next_pair po (.ok r :: rest) buf = .panicked rest buf ∧
    runPairs po (.ok r :: rest) buf = .panicked [] buf := by
  have hmk : mate_key r = none := by simp [mate_key, hflag]
  constructor
  · have h' : ¬((po && is_primary r) = true) := by simp [hskip]
    simp only [next_pair, if_neg h', hmk]
  · exact runPairs_panic hskip hmk rest buf

/-- Witness for the amended C3 on flag `0x01`. -/
theorem claim_C3_designation_fault_witness :
    next_pair false [.ok ⟨[114, 49], 0x01, 0, 0, 0, 0, 0⟩] [] =
      .panicked [] [] ∧
    runPairs false [.ok ⟨[114, 49], 0x01, 0, 0, 0, 0, 0⟩] [] =
      .panicked [] [] :=
  claim_C3_designation_fault false ⟨[114, 49], 0x01, 0, 0, 0, 0, 0⟩ [] []
    (by decide) (by decide)

/-- C4: the helper `is_primary` is true exactly for
secondary-or-supplementary records (despite its name), and with
`primary_only` set such a record is skipped entirely: the run on a
stream containing it is identical — same pairs, same buffer, hence same
singleton drain — to the run on the stream without it. -/
theorem claim_C4_primary_only (r : BamRecord) :
    (is_primary r = true ↔
      (Flag.is_secondary r.flag = true ∨ Flag.is_supplementary r.flag = true)) ∧
    (is_primary r = true → ∀ (l₁ l₂ : List Res) (buf : Buf),
      runPairs true (l₁ ++ .ok r :: l₂) buf = runPairs true (l₁ ++ l₂) buf) := by
  constructor
  · simp [is_primary]
  · intro hpr l₁ l₂ buf
    rw [runPairs_append, runPairs_append]
    have hskip : (true && is_primary r) = true := by simp [hpr]
    cases hres : runPairs true l₁ buf with
    | finished os b =>
      dsimp only
      rw [runPairs_skip hskip]
    | panicked os b => rfl

/-- Witness for C4 on a secondary record (flag `0x141`). -/
theorem claim_C4_primary_only_witness :
    (is_primary ⟨[114, 51], 0x141, 0, 7, 0, 7, 0⟩ = true ↔
      (Flag.is_secondary (0x141 : Nat) = true ∨
        Flag.is_supplementary (0x141 : Nat) = true)) ∧
    runPairs true ([] ++ .ok ⟨[114, 51], 0x141, 0, 7, 0, 7, 0⟩ :: []) [] =
      runPairs true ([] ++ []) [] :=
  ⟨(claim_C4_primary_only ⟨[114, 51], 0x141, 0, 7, 0, 7, 0⟩).1,
   (claim_C4_primary_only ⟨[114, 51], 0x141, 0, 7, 0, 7, 0⟩).2 (by decide)
     [] [] []⟩

/-- C5: a decode failure is returned exactly once, as the result of the
current `next_pair` call, with the buffer untouched and the next call
resuming at the following item; and a run over a stream with a decode
failure spliced in yields exactly the pairs of the run without it (same
final buffer), with the forwarded error inserted — so a failure at
position k does not impair the pairing of surrounding records. -/
theorem claim_C5_decode_failure :
    (∀ (po : Bool) (e : Nat) (rest : List Res) (buf : Buf),
      next_pair po (.error e :: rest) buf = .out (.err e) rest buf) ∧
    (∀ (po : Bool) (e : Nat) (l₁ l₂ : List Res) (buf : Buf)
      (os₁ os₂ : List PairOutput) (b₁ b₂ : Buf),
      runPairs po l₁ buf = .finished os₁ b₁ →
      runPairs po l₂ b₁ = .finished os₂ b₂ →
      runPairs po (l₁ ++ .error e :: l₂) buf =
        .finished (os₁ ++ .err e :: os₂) b₂) := by
  refine ⟨fun _ _ _ _ => rfl, ?_⟩
  intro po e l₁ l₂ buf os₁ os₂ b₁ b₂ h₁ h₂
  rw [runPairs_append, h₁]
  dsimp only
  rw [runPairs_error, h₂]
  rfl

/-- Witness for C5: the two mates of "r1" pair up across a decode
failure between them. -/
theorem claim_C5_decode_failure_witness :
    next_pair false [Except.error 7] [] = .out (.err 7) [] [] ∧
    runPairs false ([Except.ok ⟨[114, 49], 0x41, 0, 10, 0, 50, 40⟩] ++
        .error 7 :: [Except.ok ⟨[114, 49], 0x81, 0, 50, 0, 10, -40⟩]) [] =
      .finished ([] ++ .err 7 ::
        [.pair ⟨[114, 49], 0x41, 0, 10, 0, 50, 40⟩
          ⟨[114, 49], 0x81, 0, 50, 0, 10, -40⟩]) [] :=
  ⟨claim_C5_decode_failure.1 false 7 [] [],
   claim_C5_decode_failure.2 false 7
     [Except.ok ⟨[114, 49], 0x41, 0, 10, 0, 50, 40⟩]
     [Except.ok ⟨[114, 49], 0x81, 0, 50, 0, 10, -40⟩] [] []
     [.pair ⟨[114, 49], 0x41, 0, 10, 0, 50, 40⟩
       ⟨[114, 49], 0x81, 0, 50, 0, 10, -40⟩]
     [(⟨[114, 49], PairPosition.first, 0, 10, 0, 50, 40⟩,
       ⟨[114, 49], 0x41, 0, 10, 0, 50, 40⟩)] []
     (by decide) (by decide)⟩

/-! ### Buffer key uniqueness (C6) -/

/-- At most one buffered record per identity key. -/
def distinctKeys (b : Buf) : Prop := (bufKeys b).Nodup

instance (b : Buf) : Decidable (distinctKeys b) := by
  unfold distinctKeys; infer_instance

theorem RunResult.buffer_consOut (o : PairOutput) (x : RunResult) :
    (x.consOut o).buffer = x.buffer := by
  cases x <;> rfl

theorem bufRemove_keys_sublist (k : RecordKey) (b : Buf) :
    (bufKeys (bufRemove k b).2).Sublist (bufKeys b) := by
  induction b with
  | nil => simp [bufRemove, bufKeys]
  | cons kv rest ih =>
    obtain ⟨k₀, v₀⟩ := kv
    by_cases hk : k₀ = k
    · simp only [bufRemove, if_pos hk, bufKeys, List.map_cons]
      exact (List.Sublist.refl _).cons k₀
    · simp only [bufRemove, if_neg hk, bufKeys, List.map_cons]
      exact ih.cons₂ k₀

theorem distinctKeys_remove (k : RecordKey) {b : Buf}
    (h : distinctKeys b) : distinctKeys (bufRemove k b).2 :=
  h.sublist (bufRemove_keys_sublist k b)

theorem distinctKeys_insert (k : RecordKey) (v : BamRecord) {b : Buf}
    (h : distinctKeys b) : distinctKeys (bufInsert k v b) := by
  rcases bufInsert_shape k v b with ⟨b₁, b₂, w, hb, hb', hne⟩ | ⟨hb, hne⟩
  · have : bufKeys (bufInsert k v b) = bufKeys b := by
      rw [hb', hb]
      simp [bufKeys]
    unfold distinctKeys
    rw [this]
    exact h
  · unfold distinctKeys at h ⊢
    rw [hb]
    simp only [bufKeys, List.map_append, List.map_cons, List.map_nil]
    rw [List.nodup_append]
    refine ⟨h, List.nodup_singleton k, ?_⟩
    intro x hx
    simp only [List.mem_singleton]
    intro hc
    subst hc
    obtain ⟨kv, hkv, hfst⟩ := List.mem_map.mp hx
    exact hne kv hkv hfst

/-- A run from a buffer with pairwise-distinct keys ends (or panics)
with a buffer with pairwise-distinct keys. -/
theorem runPairs_distinctKeys (po : Bool) (l : List Res) :
    ∀ buf : Buf, distinctKeys buf →
      distinctKeys ((runPairs po l buf).buffer) := by
  induction l with
  | nil => intro buf h; exact h
  | cons x rest ih =>
    intro buf h
    cases x with
    | error e =>
      rw [runPairs_error, RunResult.buffer_consOut]
      exact ih buf h
    | ok r =>
      by_cases hskip : (po && is_primary r) = true
      · rw [runPairs_skip hskip]
        exact ih buf h
      · have hskip' : (po && is_primary r) = false := by simpa using hskip
        cases hmk : mate_key r with
        | none =>
          rw [runPairs_panic hskip' hmk]
          exact h
        | some mk =>
          cases hrm : (bufRemove mk buf).1 with
          | some mate =>
            rw [runPairs_hit hskip' hmk hrm, RunResult.buffer_consOut]
            exact ih _ (distinctKeys_remove mk h)
          | none =>
            cases hk : key r with
            | some k =>
              rw [runPairs_insert hskip' hmk (by
                rw [← bufRemove_fst]; exact hrm) hk]
              exact ih _ (distinctKeys_insert k r h)
            | none =>
              exfalso
              cases hp : PairPosition.tryFromFlag r.flag with
              | none => simp [mate_key, hp] at hmk
              | some p => simp [key, hp] at hk

/-- Two records with the same own identity key, arriving before any
mate: the first is buffered, the second silently overwrites it
(last-write-wins); only the second remains, retrievable as the sole
singleton. -/
theorem runPairs_overwrite (po : Bool) (r r' : BamRecord) (k : RecordKey)
    (hr : key r = some k) (hr' : key r' = some k)
    (hs : (po && is_primary r) = false)
    (hs' : (po && is_primary r') = false) :
    runPairs po [.ok r, .ok r'] [] = .finished [] [(k, r')] ∧
    (singletons [(k, r')]).1 = [r'] := by
  cases hp : PairPosition.tryFromFlag r.flag with
  | none => simp [key, hp] at hr
  | some p =>
  cases hp' : PairPosition.tryFromFlag r'.flag with
  | none => simp [key, hp'] at hr'
  | some q =>
  have hr2 := hr
  have hr2' := hr'
  simp only [key, hp, Option.map_some', Option.some.injEq] at hr2
  simp only [key, hp', Option.map_some', Option.some.injEq] at hr2'
  have hkq : k.pair_pos = q := by rw [← hr2']
  have hmk : mate_key r = some ⟨r.read_name, p.mate, r.next_ref_id,
      r.next_pos, r.ref_id, r.pos, -r.tlen⟩ := by
    simp [mate_key, hp]
  have hmk' : mate_key r' = some ⟨r'.read_name, q.mate, r'.next_ref_id,
      r'.next_pos, r'.ref_id, r'.pos, -r'.tlen⟩ := by
    simp [mate_key, hp']
  have hne : k ≠ (⟨r'.read_name, q.mate, r'.next_ref_id, r'.next_pos,
      r'.ref_id, r'.pos, -r'.tlen⟩ : RecordKey) := by
    intro hc
    have hq : k.pair_pos = q.mate := by rw [hc]
    rw [hkq] at hq
    exact PairPosition.mate_ne q hq.symm
  have hmiss' : bufLookup ⟨r'.read_name, q.mate, r'.next_ref_id,
      r'.next_pos, r'.ref_id, r'.pos, -r'.tlen⟩ (bufInsert k r []) = none := by
    simp [bufInsert, bufLookup, hne]
  have hmiss0 : bufLookup ⟨r.read_name, p.mate, r.next_ref_id, r.next_pos,
      r.ref_id, r.pos, -r.tlen⟩ ([] : Buf) = none := rfl
  have hstep1 : runPairs po [.ok r, .ok r'] [] =
      runPairs po [.ok r'] (bufInsert k r []) :=
    runPairs_insert hs hmk hmiss0 hr [.ok r']
  have hstep2 : runPairs po [.ok r'] (bufInsert k r []) =
      runPairs po [] (bufInsert k r' (bufInsert k r [])) :=
    runPairs_insert hs' hmk' hmiss' hr' []
  rw [hstep1, hstep2]
  constructor
  · show RunResult.finished [] (bufInsert k r' (bufInsert k r [])) = _
    simp [bufInsert]
  · rfl

/-- C6: the buffer holds at most one record per identity key at every
point (every reachable buffer has pairwise-distinct keys), and when a
second record with an identical own key arrives before any mate, the
insertion silently overwrites the buffered entry, leaving only the
later record retrievable (as the sole singleton). -/
theorem claim_C6_buffer_uniqueness :
    (∀ (po : Bool) (l : List Res) (buf : Buf), distinctKeys buf →
      distinctKeys ((runPairs po l buf).buffer)) ∧
    (∀ (po : Bool) (r r' : BamRecord) (k : RecordKey),
      key r = some k → key r' = some k →
      (po && is_primary r) = false → (po && is_primary r') = false →
      runPairs po [.ok r, .ok r'] [] = .finished [] [(k, r')] ∧
      (singletons [(k, r')]).1 = [r']) :=
  ⟨runPairs_distinctKeys, fun po r r' k hr hr' hs hs' =>
    runPairs_overwrite po r r' k hr hr' hs hs'⟩

/-- Witness for C6: two first-mate records of "r1" with identical key
fields (flags `0x41` and `0x43`); the second overwrites the first. -/
theorem claim_C6_buffer_uniqueness_witness :
    distinctKeys ((runPairs false
      [.ok ⟨[114, 49], 0x41, 0, 10, 0, 50, 40⟩,
       .ok ⟨[114, 49], 0x43, 0, 10, 0, 50, 40⟩] []).buffer) ∧
    (runPairs false [.ok ⟨[114, 49], 0x41, 0, 10, 0, 50, 40⟩,
        .ok ⟨[114, 49], 0x43, 0, 10, 0, 50, 40⟩] [] =
      .finished [] [(⟨[114, 49], PairPosition.first, 0, 10, 0, 50, 40⟩,
        ⟨[114, 49], 0x43, 0, 10, 0, 50, 40⟩)] ∧
      (singletons [(⟨[114, 49], PairPosition.first, 0, 10, 0, 50, 40⟩,
        ⟨[114, 49], 0x43, 0, 10, 0, 50, 40⟩)]).1 =
        [⟨[114, 49], 0x43, 0, 10, 0, 50, 40⟩]) :=
  ⟨claim_C6_buffer_uniqueness.1 false
    [.ok ⟨[114, 49], 0x41, 0, 10, 0, 50, 40⟩,
     .ok ⟨[114, 49], 0x43, 0, 10, 0, 50, 40⟩] [] (by decide),
   claim_C6_buffer_uniqueness.2 false
     ⟨[114, 49], 0x41, 0, 10, 0, 50, 40⟩
     ⟨[114, 49], 0x43, 0, 10, 0, 50, 40⟩
     ⟨[114, 49], PairPosition.first, 0, 10, 0, 50, 40⟩
     (by decide) (by decide) (by decide) (by decide)⟩

/-! ### Conservation of records (C7) -/

/-- The records of a hit's emitted pair, as a permutation of
`[mate, arriving]`. -/
theorem pairRecs_orderedOut_perm (pp : PairPosition) (x y : BamRecord)
    (os : List PairOutput) :
    (pairRecs (orderedOut pp x y :: os)).Perm (x :: y :: pairRecs os) := by
  cases pp
  · exact List.Perm.refl _
  · exact List.Perm.swap x y _

/-- Conservation: the records inside the emitted pairs together with the
final buffered records form a sub-multiset of the decoded input records
plus the initially buffered records (skips and overwrites only drop
records, never duplicate them). -/
theorem runPairs_subperm (po : Bool) (l : List Res) :
    ∀ (buf : Buf) (os : List PairOutput) (b' : Buf),
      runPairs po l buf = .finished os b' →
      (pairRecs os ++ bufVals b').Subperm (okRecords l ++ bufVals buf) := by
  induction l with
  | nil =>
    intro buf os b' hrun
    simp only [runPairs] at hrun
    cases hrun
    exact List.Subperm.refl _
  | cons x rest ih =>
    intro buf os b' hrun
    cases x with
    | error e =>
      rw [runPairs_error] at hrun
      cases hres : runPairs po rest buf with
      | panicked os₀ b₀ =>
        rw [hres] at hrun
        dsimp only [RunResult.consOut] at hrun
        cases hrun
      | finished os₀ b₀ =>
        rw [hres] at hrun
        dsimp only [RunResult.consOut] at hrun
        cases hrun
        exact ih buf os₀ b' hres
    | ok r =>
      by_cases hskip : (po && is_primary r) = true
      · rw [runPairs_skip hskip] at hrun
        exact (ih buf os b' hrun).trans
          ((List.sublist_cons_self r _).subperm)
      · have hskip' : (po && is_primary r) = false := by simpa using hskip
        cases hmk : mate_key r with
        | none =>
          rw [runPairs_panic hskip' hmk] at hrun
          cases hrun
        | some mk =>
          cases hrm : (bufRemove mk buf).1 with
          | some mate =>
            rw [runPairs_hit_ord hskip' hmk hrm] at hrun
            cases hres : runPairs po rest (bufRemove mk buf).2 with
            | panicked os₀ b₀ =>
              rw [hres] at hrun
              dsimp only [RunResult.consOut] at hrun
              cases hrun
            | finished os₀ b₀ =>
              rw [hres] at hrun
              dsimp only [RunResult.consOut] at hrun
              cases hrun
              have hsplit : bufRemove mk buf =
                  (some mate, (bufRemove mk buf).2) := by
                rw [← hrm]
              obtain ⟨b₁, b₂, hbeq, hbeq', hb₁ne⟩ := bufRemove_shape hsplit
              have hv : bufVals buf = bufVals b₁ ++ mate :: bufVals b₂ := by
                rw [hbeq]; simp [bufVals]
              have hv' : bufVals (bufRemove mk buf).2 =
                  bufVals b₁ ++ bufVals b₂ := by
                rw [hbeq']; simp [bufVals]
              have h0 := ih _ os₀ b' hres
              rw [hv'] at h0
              have hL : (pairRecs (orderedOut mk.pair_pos mate r :: os₀) ++
                  bufVals b').Perm
                  (mate :: r :: (pairRecs os₀ ++ bufVals b')) :=
                List.Perm.append_right _
                  (pairRecs_orderedOut_perm mk.pair_pos mate r os₀)
              have hR : (r :: (okRecords rest ++ bufVals buf)).Perm
                  (mate :: r :: (okRecords rest ++
                    (bufVals b₁ ++ bufVals b₂))) := by
                rw [hv]
                have step1 : (okRecords rest ++
                    (bufVals b₁ ++ mate :: bufVals b₂)).Perm
                    (okRecords rest ++ (mate :: (bufVals b₁ ++ bufVals b₂))) :=
                  List.Perm.append_left _ List.perm_middle
                have step2 : (okRecords rest ++
                    (mate :: (bufVals b₁ ++ bufVals b₂))).Perm
                    (mate :: (okRecords rest ++
                      (bufVals b₁ ++ bufVals b₂))) :=
                  List.perm_middle
                exact ((step1.trans step2).cons r).trans
                  (List.Perm.swap mate r _)
              exact hL.subperm_right.mpr (hR.subperm_left.mpr
                ((List.subperm_cons mate).mpr ((List.subperm_cons r).mpr h0)))
          | none =>
            cases hk : key r with
            | none =>
              exfalso
              cases hp : PairPosition.tryFromFlag r.flag with
              | none => simp [mate_key, hp] at hmk
              | some p => simp [key, hp] at hk
            | some k =>
              have hmiss : bufLookup mk buf = none := by
                rw [← bufRemove_fst]; exact hrm
              rw [runPairs_insert hskip' hmk hmiss hk] at hrun
              have h0 := ih _ os b' hrun
              refine h0.trans ?_
              rcases bufInsert_shape k r buf with
                ⟨b₁, b₂, w, hbeq, hbeq', hne⟩ | ⟨hbeq', hne⟩
              · have hv : bufVals buf = bufVals b₁ ++ w :: bufVals b₂ := by
                  rw [hbeq]; simp [bufVals]
                have hv' : bufVals (bufInsert k r buf) =
                    bufVals b₁ ++ r :: bufVals b₂ := by
                  rw [hbeq']; simp [bufVals]
                rw [hv', hv]
                have h1 : (okRecords rest ++
                    (bufVals b₁ ++ r :: bufVals b₂)).Perm
                    (r :: (okRecords rest ++ (bufVals b₁ ++ bufVals b₂))) :=
                  (List.Perm.append_left _ List.perm_middle).trans
                    List.perm_middle
                have h2 : (r :: (okRecords rest ++
                    (bufVals b₁ ++ bufVals b₂))).Sublist
                    (r :: (okRecords rest ++
                      (bufVals b₁ ++ w :: bufVals b₂))) :=
                  ((List.append_sublist_append_left _).mpr
                    ((List.append_sublist_append_left _).mpr
                      (List.sublist_cons_self w _))).cons₂ r
                exact h1.subperm.trans h2.subperm
              · have hv' : bufVals (bufInsert k r buf) =
                    bufVals buf ++ [r] := by
                  rw [hbeq']; simp [bufVals]
                rw [hv']
                have h1 : (okRecords rest ++ (bufVals buf ++ [r])).Perm
                    (r :: (okRecords rest ++ bufVals buf)) :=
                  (List.Perm.append_left _
                    (List.perm_append_singleton r _)).trans List.perm_middle
                exact h1.subperm

theorem subperm_nodup {l₁ l₂ : List BamRecord} (h : l₁.Subperm l₂)
    (hn : l₂.Nodup) : l₁.Nodup := by
  obtain ⟨l, hperm, hsub⟩ := h
  exact hperm.nodup_iff.mp (hn.sublist hsub)

/-- C7: after a finished run over distinct records from the empty
buffer, the singleton drain yields exactly the remaining buffered
records, each exactly once (no duplicates) and none of which was ever
emitted inside a pair; the drain leaves the buffer empty, so an
immediately following second drain yields the empty sequence. -/
theorem claim_C7_singletons (po : Bool) (l : List Res) (os : List PairOutput)
    (b' : Buf) (hnd : (okRecords l).Nodup)
    (hrun : runPairs po l [] = .finished os b') :
    (singletons b').1 = bufVals b' ∧ (singletons b').2 = [] ∧
    (bufVals b').Nodup ∧ (∀ r ∈ bufVals b', r ∉ pairRecs os) ∧
    (singletons (singletons b').2).1 = [] := by
  have hsp := runPairs_subperm po l [] os b' hrun
  have hnd2 : (pairRecs os ++ bufVals b').Nodup :=
    subperm_nodup (by simpa [bufVals] using hsp) hnd
  have hbn : (bufVals b').Nodup := List.Nodup.of_append_right hnd2
  have hdisj := List.disjoint_of_nodup_append hnd2
  refine ⟨rfl, rfl, hbn, ?_, rfl⟩
  intro r hr hmem
  exact hdisj hmem hr

/-- Witness for C7: the sole record of template "r2" never finds a mate
and is drained exactly once; the second drain is empty. -/
theorem claim_C7_singletons_witness :
    (singletons [(⟨[114, 50], PairPosition.first, 0, 100, 0, 120, 20⟩,
      ⟨[114, 50], 0x41, 0, 100, 0, 120, 20⟩)]).1 =
      bufVals [(⟨[114, 50], PairPosition.first, 0, 100, 0, 120, 20⟩,
        ⟨[114, 50], 0x41, 0, 100, 0, 120, 20⟩)] ∧
    (singletons [(⟨[114, 50], PairPosition.first, 0, 100, 0, 120, 20⟩,
      ⟨[114, 50], 0x41, 0, 100, 0, 120, 20⟩)]).2 = [] ∧
    (bufVals [(⟨[114, 50], PairPosition.first, 0, 100, 0, 120, 20⟩,
      ⟨[114, 50], 0x41, 0, 100, 0, 120, 20⟩)]).Nodup ∧
    (∀ r ∈ bufVals [(⟨[114, 50], PairPosition.first, 0, 100, 0, 120, 20⟩,
      ⟨[114, 50], 0x41, 0, 100, 0, 120, 20⟩)], r ∉ pairRecs []) ∧
    (singletons (singletons
      [(⟨[114, 50], PairPosition.first, 0, 100, 0, 120, 20⟩,
        ⟨[114, 50], 0x41, 0, 100, 0, 120, 20⟩)]).2).1 = [] :=
  claim_C7_singletons false [.ok ⟨[114, 50], 0x41, 0, 100, 0, 120, 20⟩]
    [] [(⟨[114, 50], PairPosition.first, 0, 100, 0, 120, 20⟩,
      ⟨[114, 50], 0x41, 0, 100, 0, 120, 20⟩)]
    (by decide) (by decide)

/-- C8: the flag-to-designation conversion yields First when the read-1
bit is set (even if the read-2 bit is also set, it still resolves — to
First), Second when only the read-2 bit is set, and fails exactly when
neither bit is set. -/
theorem claim_C8_designation (f : Flag) :
    (Flag.is_read_1 f = true → PairPosition.tryFromFlag f = some .first) ∧
    (Flag.is_read_1 f = false → Flag.is_read_2 f = true →
      PairPosition.tryFromFlag f = some .second) ∧
    (PairPosition.tryFromFlag f = none ↔
      (Flag.is_read_1 f = false ∧ Flag.is_read_2 f = false)) := by
  unfold PairPosition.tryFromFlag
  refine ⟨fun h => by simp [h], fun h1 h2 => by simp [h1, h2], ?_, ?_⟩
  · intro h
    by_cases h1 : Flag.is_read_1 f
    · simp [h1] at h
    · by_cases h2 : Flag.is_read_2 f
      · simp [h1, h2] at h
      · exact ⟨by simpa using h1, by simpa using h2⟩
  · rintro ⟨h1, h2⟩
    simp [h1, h2]

/-- Witness for C8 at the flags of the repo's unit test: `0x41`, `0x81`
and `0x01`. -/
theorem claim_C8_designation_witness :
    PairPosition.tryFromFlag 0x41 = some .first ∧
    PairPosition.tryFromFlag 0x81 = some .second ∧
    (PairPosition.tryFromFlag 0x01 = none ↔
      (Flag.is_read_1 0x01 = false ∧ Flag.is_read_2 0x01 = false)) :=
  ⟨(claim_C8_designation 0x41).1 (by decide),
   (claim_C8_designation 0x81).2.1 (by decide) (by decide),
   (claim_C8_designation 0x01).2.2⟩

end Squab

namespace SquabFeature

/-! ### The `Feature` value type (`src/feature.rs`) -/

/-- `gff::Strand`. -/
inductive Strand where
  | missing
  | forward
  | reverse
  | unknown
deriving DecidableEq, Repr

/-- The u64 modulus. -/
def U64_MOD : Nat := 2 ^ 64

/-- Wrapping u64 subtraction (operands below `U64_MOD`). -/
def wrapSub (a b : Nat) : Nat := (a + (U64_MOD - b)) % U64_MOD

/-- Wrapping u64 addition. -/
def wrapAdd (a b : Nat) : Nat := (a + b) % U64_MOD

/-- `Feature` from `feature.rs`; `start` and `end` are `u64`. -/
structure Feature where
  reference_name : String
  start : Nat
  end_ : Nat
  strand : Strand
deriving DecidableEq, Repr

/-- `Feature::len`: `self.end - self.start + 1` in u64 arithmetic. -/
def Feature.len (f : Feature) : Nat := wrapAdd (wrapSub f.end_ f.start) 1

/-- `Feature::is_empty`: `self.start == self.end`. -/
def Feature.is_empty (f : Feature) : Bool := f.start == f.end_

/-- C9: `is_empty` is true exactly when `start = end`; a feature with
`start = end` is reported empty yet has `len = 1`, a nonzero length. -/
theorem claim_C9_is_empty (f : Feature) (hs : f.start < U64_MOD) :
    (f.is_empty = true ↔ f.start = f.end_) ∧
    (f.start = f.end_ → f.len = 1 ∧ f.len ≠ 0) := by
  constructor
  · simp [Feature.is_empty]
  · intro h
    have hlen : f.len = 1 := by
      unfold Feature.len wrapAdd wrapSub U64_MOD
      unfold U64_MOD at hs
      rw [← h]
      have h1 : f.start + (2 ^ 64 - f.start) = 2 ^ 64 := by omega
      rw [h1, Nat.mod_self]
      norm_num
    exact ⟨hlen, by simp [hlen]⟩

/-- Witness for C9 on the repo's `is_empty` test feature (start = end = 1). -/
theorem claim_C9_is_empty_witness :
    ((⟨"sq0", 1, 1, .forward⟩ : Feature).is_empty = true ↔ (1 : Nat) = 1) ∧
    ((1 : Nat) = 1 → (⟨"sq0", 1, 1, .forward⟩ : Feature).len = 1 ∧
      (⟨"sq0", 1, 1, .forward⟩ : Feature).len ≠ 0) :=
  claim_C9_is_empty ⟨"sq0", 1, 1, .forward⟩ (by norm_num [U64_MOD])

/-- C10 counterexample: with start = 0 and end = 2^64 − 1 the
precondition end ≥ start holds, yet `len` wraps to 0 while the inclusive
span end − start + 1 = 2^64 is nonzero: the `+ 1` itself overflows, so
"end ≥ start" alone does not rule out overflow. -/
theorem claim_C10_counterexample :
    (0 : Nat) ≤ U64_MOD - 1 ∧
    (⟨"sq0", 0, U64_MOD - 1, .forward⟩ : Feature).len = 0 ∧
    (U64_MOD - 1) - 0 + 1 ≠ 0 := by
  refine ⟨Nat.zero_le _, ?_, by norm_num [U64_MOD]⟩
  unfold Feature.len wrapAdd wrapSub U64_MOD
  norm_num

/-- C10 (amended): `len` computes end − start + 1 in u64 arithmetic;
under the precondition end ≥ start *and* end − start + 1 < 2^64 it
returns the inclusive span exactly (the corner start = 0,
end = 2^64 − 1 overflows the `+ 1`); and for end < start the u64
subtraction underflows: its wrapped result differs from the
mathematical difference end − start, which is negative. -/
theorem claim_C10_len (f : Feature) (hs : f.start < U64_MOD)
    (he : f.end_ < U64_MOD) :
    (f.start ≤ f.end_ → f.end_ - f.start + 1 < U64_MOD →
      f.len = f.end_ - f.start + 1) ∧
    (f.end_ < f.start →
      (wrapSub f.end_ f.start : Int) ≠ (f.end_ : Int) - (f.start : Int)) := by
  have hM : U64_MOD = 18446744073709551616 := by norm_num [U64_MOD]
  rw [hM] at hs he
  constructor
  · intro h1 h2
    rw [hM] at h2
    unfold Feature.len wrapAdd wrapSub
    rw [hM]
    have e1 : f.end_ + (18446744073709551616 - f.start) =
        (f.end_ - f.start) + 18446744073709551616 := by omega
    rw [e1, Nat.add_mod_right]
    omega
  · intro h
    unfold wrapSub
    rw [hM]
    have e1 : f.end_ + (18446744073709551616 - f.start) <
        18446744073709551616 := by omega
    rw [Nat.mod_eq_of_lt e1]
    intro hc
    omega

/-- Witness for C10: the repo's test feature (8, 13) has length 6, and a
feature with end 3 < start 5 computes a wrapped subtraction that is not
the mathematical difference. -/
theorem claim_C10_len_witness :
    (⟨"sq0", 8, 13, .forward⟩ : Feature).len = 13 - 8 + 1 ∧
    (wrapSub 3 5 : Int) ≠ (3 : Int) - (5 : Int) :=
  ⟨(claim_C10_len ⟨"sq0", 8, 13, .forward⟩ (by norm_num [U64_MOD])
      (by norm_num [U64_MOD])).1 (by norm_num) (by norm_num [U64_MOD]),
   (claim_C10_len ⟨"sq0", 5, 3, .forward⟩ (by norm_num [U64_MOD])
      (by norm_num [U64_MOD])).2 (by norm_num)⟩

end SquabFeature
